import Mathlib

/-!
# Verification of the TaskPrioritize scheduling engine

Shallow embedding of the scheduling core of `src/flask_app/app.py`:
the `Task` model, `build_graph`, `topological_sort` (Kahn process plus
priority re-sort), `create_max_heap` (Python `heapq` push), and
`prioritize_tasks` (greedy allocation with a fractional tail), plus the
composed pipeline used by the `/prioritize` route.

Numeric fields are embedded as rationals (the Python source computes with
exact integer inputs and real division).  Python dictionaries
(`defaultdict(list)`, `defaultdict(int)`, the name-to-task map) are embedded
as association lists with the dictionaries' default-on-missing-key lookup.
Runtime faults of the source (the unguarded `value / duration` in the sort
key of `topological_sort`, and the `TypeError` raised by `heapq` when two
tuples tie on both numeric components and fall through to comparing `Task`
objects) are embedded as `Except.error`.
-/

namespace FlaskApp

/-- The `Task` class: name, value, duration, dependency names, mandatory
and fractionable flags (`app.py` lines 6-13). -/
structure Task where
  name : String
  value : ℚ
  duration : ℚ
  dependencies : List String
  mandatory : Bool
  fractionable : Bool
deriving DecidableEq, Repr

/-- Lookup in an integer-valued dictionary with `defaultdict(int)` semantics:
a missing key reads as `0`. -/
def getI : List (String × Int) → String → Int
  | [], _ => 0
  | (k, v) :: m, n => if k = n then v else getI m n

/-- Write a key in an integer-valued dictionary (replace the binding if the
key is present, insert it otherwise). -/
def setI : List (String × Int) → String → Int → List (String × Int)
  | [], n, v => [(n, v)]
  | (k, w) :: m, n, v => if k = n then (n, v) :: m else (k, w) :: setI m n v

/-- Lookup in a list-valued dictionary with `defaultdict(list)` semantics:
a missing key reads as `[]`. -/
def getG : List (String × List String) → String → List String
  | [], _ => []
  | (k, v) :: g, n => if k = n then v else getG g n

/-- `graph[k].append(x)` on a `defaultdict(list)`. -/
def addG : List (String × List String) → String → String → List (String × List String)
  | [], k, x => [(k, [x])]
  | (k', v) :: g, k, x => if k' = k then (k, v ++ [x]) :: g else (k', v) :: addG g k x

/-- First loop of `build_graph` (lines 30-31): `in_degree[task.name] = 0`
for every task. -/
def initZero : List (String × Int) → List Task → List (String × Int)
  | m, [] => m
  | m, t :: rest => initZero (setI m t.name 0) rest

/-- Inner loop of `build_graph` (lines 34-36) for one task: for each listed
dependency, append the task's name to `graph[dependency]` and increment
`in_degree[task.name]`. -/
def addTaskEdges (tname : String) :
    List (String × List String) × List (String × Int) → List String →
    List (String × List String) × List (String × Int)
  | st, [] => st
  | st, d :: ds =>
      addTaskEdges tname (addG st.1 d tname, setI st.2 tname (getI st.2 tname + 1)) ds

/-- Second loop of `build_graph` (lines 33-36) over all tasks. -/
def addEdges :
    List (String × List String) × List (String × Int) → List Task →
    List (String × List String) × List (String × Int)
  | st, [] => st
  | st, t :: rest => addEdges (addTaskEdges t.name st t.dependencies) rest

/-- `build_graph` (lines 26-38): returns the forward-edge dictionary
(dependency name ↦ names of tasks listing it) and the in-degree dictionary. -/
def build_graph (tasks : List Task) : List (String × List String) × List (String × Int) :=
  addEdges ([], initZero [] tasks) tasks

/-- The dictionary comprehension `{task.name: task for task in tasks}`
(line 43): later entries overwrite earlier ones. -/
def taskMapAux : (String → Option Task) → List Task → String → Option Task
  | m, [] => m
  | m, t :: rest => taskMapAux (fun n => if n = t.name then some t else m n) rest

/-- The name-to-task map of `topological_sort`, built last-write-wins. -/
def taskMap (tasks : List Task) : String → Option Task :=
  taskMapAux (fun _ => none) tasks

/-- Number of dictionary entries holding a positive in-degree.  Used as the
termination budget of the Kahn process: every enqueue is paid for by an
in-degree dropping from positive to zero. -/
def posCount (m : List (String × Int)) : Nat :=
  (m.filter (fun p => 0 < p.2)).length

/-- Body of the Kahn loop (lines 50-53) for the popped name's dependents:
decrement each dependent's in-degree, enqueueing it when the decrement
lands exactly on zero. -/
def processDeps :
    List (String × Int) × List String → List String → List (String × Int) × List String
  | st, [] => st
  | st, d :: ds =>
      processDeps
        (setI st.1 d (getI st.1 d - 1),
         if getI st.1 d - 1 = 0 then st.2 ++ [d] else st.2) ds

/-- The Kahn queue loop of `topological_sort` (lines 47-53), producing the
sequence of popped names.  The fuel argument is only a termination budget:
`kahnNames` below supplies a provably sufficient amount, so the `0` case is
never reached on the source's call path. -/
def kahnRun (graph : String → List String) : Nat → List (String × Int) → List String → List String
  | _, _, [] => []
  | 0, _, _ :: _ => []
  | fuel + 1, indeg, c :: rest =>
      c :: kahnRun graph fuel (processDeps (indeg, rest) (graph c)).1
        (processDeps (indeg, rest) (graph c)).2

/-- The queue seed of line 44 followed by the loop: all names popped by the
Kahn process of `topological_sort`, in pop order. -/
def kahnNames (tasks : List Task) : List String :=
  let bg := build_graph tasks
  let queue := (tasks.filter (fun t => getI bg.2 t.name = 0)).map (fun t => t.name)
  kahnRun (fun c => getG bg.1 c) (queue.length + posCount bg.2) bg.2 queue

/-- `sorted_tasks` as of line 53: the dependency-respecting order produced
by the Kahn process, before the priority re-sort of line 56. -/
def topo_order (tasks : List Task) : List Task :=
  (kahnNames tasks).filterMap (taskMap tasks)

/-- `-task.mandatory` of the sort and heap keys: Python negates the boolean
to the integers `-1` (mandatory) and `0`. -/
def negMand (t : Task) : Int := if t.mandatory then -1 else 0

/-- The ascending order on the sort key
`(-t.mandatory, -(t.value / t.duration))` of line 56. -/
def taskLE (a b : Task) : Prop :=
  negMand a < negMand b ∨ (negMand a = negMand b ∧ -(a.value / a.duration) ≤ -(b.value / b.duration))

instance : DecidableRel taskLE := fun a b => by
  unfold taskLE
  infer_instance

instance : IsTotal Task taskLE := by
  constructor
  intro a b
  unfold taskLE
  rcases lt_trichotomy (negMand a) (negMand b) with h | h | h
  · exact Or.inl (Or.inl h)
  · rcases le_total (-(a.value / a.duration)) (-(b.value / b.duration)) with h2 | h2
    · exact Or.inl (Or.inr ⟨h, h2⟩)
    · exact Or.inr (Or.inr ⟨h.symm, h2⟩)
  · exact Or.inr (Or.inl h)

instance : IsTrans Task taskLE := by
  constructor
  intro a b c hab hbc
  unfold taskLE at *
  rcases hab with h1 | ⟨e1, l1⟩
  · rcases hbc with h2 | ⟨e2, _⟩
    · exact Or.inl (h1.trans h2)
    · exact Or.inl (e2 ▸ h1)
  · rcases hbc with h2 | ⟨e2, l2⟩
    · exact Or.inl (e1 ▸ h2)
    · exact Or.inr ⟨e1.trans e2, l1.trans l2⟩

/-- `topological_sort` (lines 41-57).  The re-sort of line 56 computes the
key `t.value / t.duration` for every task in the Kahn output, so a
zero-duration task there raises `ZeroDivisionError` (embedded as
`Except.error`); otherwise the list is stably sorted by the key, which is
what Python's stable `list.sort` produces. -/
def topological_sort (tasks : List Task) : Except Unit (List Task) :=
  if (topo_order tasks).any (fun t => t.duration = 0) then .error ()
  else .ok ((topo_order tasks).insertionSort taskLE)

/-- Entries of the max-heap of `create_max_heap` (line 65): the tuple
`(-task.mandatory, -(task.value / task.duration), task)`. -/
abbrev Entry := Int × ℚ × Task

/-- Placeholder entry for out-of-range list reads; all reads on the source's
call path are in range, so it never surfaces. -/
def dEntry : Entry := (0, 0, ⟨"", 0, 0, [], false, false⟩)

/-- The heap tuple pushed for a task at line 65. -/
def entryOf (t : Task) : Entry := (negMand t, -(t.value / t.duration), t)

/-- Python's `<` on two heap tuples: lexicographic on the numeric
components; when both tie, Python compares the `Task` objects, which define
no ordering, raising `TypeError` (embedded as `Except.error`).  Distinct
tasks appearing in the same heap are distinct Python objects, and equal
tasks are the same object (the heap holds values of the single name-to-task
map), so object equality is embedded as value equality. -/
def entryLt (a b : Entry) : Except Unit Bool :=
  if a.1 ≠ b.1 then .ok (a.1 < b.1)
  else if a.2.1 ≠ b.2.1 then .ok (a.2.1 < b.2.1)
  else if a.2.2 = b.2.2 then .ok false
  else .error ()

/-- `heapq._siftdown(heap, startpos, pos)`: bubble `newitem` toward the
root while it compares below its parent.  The fuel only bounds the loop
(each step strictly decreases `pos`), and callers pass `pos` itself, which
always suffices. -/
def siftdownGo : Nat → List Entry → Nat → Nat → Entry → Except Unit (List Entry)
  | 0, heap, startpos, pos, newitem =>
      if startpos < pos then .error () else .ok (heap.set pos newitem)
  | fuel + 1, heap, startpos, pos, newitem =>
      if startpos < pos then
        match entryLt newitem (heap.getD ((pos - 1) / 2) dEntry) with
        | .error e => .error e
        | .ok true =>
            siftdownGo fuel (heap.set pos (heap.getD ((pos - 1) / 2) dEntry))
              startpos ((pos - 1) / 2) newitem
        | .ok false => .ok (heap.set pos newitem)
      else .ok (heap.set pos newitem)

/-- `heapq.heappush(heap, item)`: append then sift down from the last slot. -/
def heappush (heap : List Entry) (e : Entry) : Except Unit (List Entry) :=
  siftdownGo heap.length (heap ++ [e]) 0 heap.length e

/-- `heapq._siftup(heap, pos)` with `pos = 0` as called by `heappop`: walk
the smaller-child path to a leaf, then sift the saved item back down.  The
fuel only bounds the loop (`pos` strictly grows below `heap.length`), and
`heappop` passes `heap.length`, which always suffices. -/
def siftupGo : Nat → List Entry → Nat → Entry → Except Unit (List Entry)
  | 0, heap, pos, newitem =>
      if 2 * pos + 1 < heap.length then .error ()
      else siftdownGo pos (heap.set pos newitem) 0 pos newitem
  | fuel + 1, heap, pos, newitem =>
      let childpos := 2 * pos + 1
      if childpos < heap.length then
        let rightpos := childpos + 1
        match (if rightpos < heap.length then
                entryLt (heap.getD childpos dEntry) (heap.getD rightpos dEntry)
              else .ok true) with
        | .error e => .error e
        | .ok b =>
          let child := if b then childpos else rightpos
          siftupGo fuel (heap.set pos (heap.getD child dEntry)) child newitem
      else siftdownGo pos (heap.set pos newitem) 0 pos newitem

/-- `heapq.heappop(heap)`: remove the last element; if the heap is still
nonempty, save the root, move the last element to the root and sift it up;
return the saved root and the repaired heap. -/
def heappop : List Entry → Except Unit (Entry × List Entry)
  | [] => .error ()
  | h0 :: htail =>
      let heap := h0 :: htail
      let lastelt := heap.getLast (List.cons_ne_nil h0 htail)
      match heap.dropLast with
      | [] => .ok (lastelt, [])
      | r0 :: rtail =>
          match siftupGo (r0 :: rtail).length ((r0 :: rtail).set 0 lastelt) 0 lastelt with
          | .error e => .error e
          | .ok h => .ok (r0, h)

/-- The loop of `create_max_heap` (lines 62-65): push every task passing
the admission filter `duration > 0 and (mandatory or available_time >=
duration)`. -/
def cmhGo (available_time : ℚ) : List Task → List Entry → Except Unit (List Entry)
  | [], heap => .ok heap
  | task :: rest, heap =>
      if 0 < task.duration ∧ (task.mandatory = true ∨ task.duration ≤ available_time) then
        match heappush heap (entryOf task) with
        | .error e => .error e
        | .ok h => cmhGo available_time rest h
      else cmhGo available_time rest heap

/-- `create_max_heap` (lines 60-66). -/
def create_max_heap (sorted_tasks : List Task) (available_time : ℚ) : Except Unit (List Entry) :=
  cmhGo available_time sorted_tasks []

/-- The activity synthesized at line 81 when a popped fractionable task does
not fit: `Task(f"{task.name} (Partial)", task.value * fraction,
available_time - current_time)` with the constructor defaults (no
dependencies, not mandatory, not fractionable), where `fraction =
(available_time - current_time) / task.duration`. -/
def fracTask (task : Task) (available_time current_time : ℚ) : Task :=
  ⟨task.name ++ " (Partial)",
   task.value * ((available_time - current_time) / task.duration),
   available_time - current_time, [], false, false⟩

/-- The loop of `prioritize_tasks` (lines 73-82).  The fuel only bounds the
loop (each iteration pops one element); `prioritize_tasks` passes the heap
size, which always suffices, and exhaustion is embedded as an error so that
an `ok` result is exactly a completed Python run. -/
def prioGo (available_time : ℚ) : Nat → List Entry → ℚ → List Task → Except Unit (List Task)
  | fuel, heap, current_time, selected =>
      if heap = [] ∨ ¬ current_time < available_time then .ok selected
      else
        match fuel with
        | 0 => .error ()
        | fuel + 1 =>
          match heappop heap with
          | .error e => .error e
          | .ok (e, heap') =>
            let task := e.2.2
            if current_time + task.duration ≤ available_time then
              prioGo available_time fuel heap' (current_time + task.duration) (selected ++ [task])
            else if task.fractionable then
              .ok (selected ++ [fracTask task available_time current_time])
            else prioGo available_time fuel heap' current_time selected

/-- `prioritize_tasks` (lines 69-84). -/
def prioritize_tasks (max_heap : List Entry) (available_time : ℚ) : Except Unit (List Task) :=
  prioGo available_time max_heap.length max_heap 0 []

/-- The scheduling pipeline of the `/prioritize` route (lines 204-206):
`topological_sort`, then `create_max_heap`, then `prioritize_tasks`. -/
def schedule (tasks : List Task) (available_time : ℚ) : Except Unit (List Task) :=
  match topological_sort tasks with
  | .error e => .error e
  | .ok sorted =>
      match create_max_heap sorted available_time with
      | .error e => .error e
      | .ok heap => prioritize_tasks heap available_time

/-- Total duration of a selection, the quantity bounded by the budget
conservation property. -/
def sumDur (l : List Task) : ℚ := (l.map Task.duration).sum

/-- The forward-edge lists of the built graph, as the function the Kahn
loop of `topological_sort` reads. -/
def graphOf (tasks : List Task) (c : String) : List String :=
  getG (build_graph tasks).1 c

/-- The in-degree dictionary of the built graph. -/
def indeg0 (tasks : List Task) : List (String × Int) :=
  (build_graph tasks).2

/-- The seed queue of line 44. -/
def seedQueue (tasks : List Task) : List String :=
  (tasks.filter (fun t => getI (indeg0 tasks) t.name = 0)).map (fun t => t.name)

/-- The dependency list of the task a name resolves to (empty for
unresolvable names). -/
def depsOf (tasks : List Task) (n : String) : List String :=
  match taskMap tasks n with
  | some t => t.dependencies
  | none => []

/-- Total weight of the tasks bearing a given name; specialised below to
dependency counts and to in-degrees. -/
def wsum (w : Task → Nat) (L : List Task) (n : String) : Nat :=
  (L.map (fun t => if t.name = n then w t else 0)).sum

/-- Total number of in-degree decrements a name has received from the
already-popped names. -/
def decSum (tasks : List Task) (popped : List String) (n : String) : Nat :=
  (popped.map (fun c => (depsOf tasks n).count c)).sum

/-- Total version of the name-to-task lookup the Kahn loop performs on
popped names (popped names always resolve, so the default is never read
on the source's call path). -/
def resolveTask (tasks : List Task) (n : String) : Task :=
  (taskMap tasks n).getD ⟨"", 0, 0, [], false, false⟩

example : schedule [⟨"A", 10, 5, [], true, false⟩, ⟨"B", 6, 6, [], false, true⟩] 8 =
    .ok [⟨"A", 10, 5, [], true, false⟩, ⟨"B (Partial)", 3, 3, [], false, false⟩] := by
  with_unfolding_all rfl

/-- C3.  The claim is the spec's intent but the code faults: a zero-duration
activity reaching the Kahn output makes the re-sort key `t.value /
t.duration` of `topological_sort` (line 56) raise `ZeroDivisionError`, so
the pipeline propagates a division fault instead of silently excluding the
activity.  (The guard `task.duration > 0` exists only in `create_max_heap`,
which is never reached.)  Evaluated at the failing input
`[Task "Z" 5 0 [] false false]`. -/
theorem C3_zero_duration_fault :
    topological_sort [⟨"Z", 5, 0, [], false, false⟩] = .error () ∧
    schedule [⟨"Z", 5, 0, [], false, false⟩] 10 = .error () := by
  constructor
  · with_unfolding_all rfl
  · with_unfolding_all rfl

/-- C8.  The claim (budget 0 always yields an empty selection, even for
zero-duration activities) is the spec's intent, but on a set containing a
zero-duration activity the code raises `ZeroDivisionError` in
`topological_sort` before the allocator loop is ever consulted, so no
(empty) selection is returned.  Evaluated at the failing input
`[Task "Z" 5 0 [] false false]` with `available_time = 0`. -/
theorem C8_zero_budget_fault :
    schedule [⟨"Z", 5, 0, [], false, false⟩] 0 = .error () := by
  with_unfolding_all rfl

/-- C9.  Two distinct admissible activities with the same mandatory flag
and the same value/duration ratio (here `A` with 1/1 and `B` with 2/2,
both optional, both fitting the budget 10) tie on both numeric components
of their heap tuples; `heappush` then compares the `Task` objects
themselves, which define no ordering, so `create_max_heap` raises a
comparison `TypeError` and the pipeline fails instead of returning a
selection. -/
theorem C9_heap_tie_comparison_error :
    create_max_heap
      [⟨"A", 1, 1, [], false, false⟩, ⟨"B", 2, 2, [], false, false⟩] 10 = .error () ∧
    schedule [⟨"A", 1, 1, [], false, false⟩, ⟨"B", 2, 2, [], false, false⟩] 10 = .error () := by
  constructor
  · with_unfolding_all rfl
  · with_unfolding_all rfl

/-- C2, counterexample.  An activity whose dependency list names `"X"`,
which no activity in the set bears, is claimed to be unaffected; but
`build_graph` (line 36) increments the activity's in-degree for the
unresolved reference and no pop ever decrements it, so the activity never
reaches in-degree 0 and is dropped from the topological output entirely
(its resolvable dependencies — there are none — are trivially acyclic),
and it is never scheduled. -/
theorem C2_counterexample :
    topo_order [⟨"A", 1, 1, ["X"], false, false⟩] = [] ∧
    (⟨"A", 1, 1, ["X"], false, false⟩ : Task) ∉ topo_order [⟨"A", 1, 1, ["X"], false, false⟩] ∧
    schedule [⟨"A", 1, 1, ["X"], false, false⟩] 100 = .ok [] := by
  refine ⟨by with_unfolding_all rfl, ?_, by with_unfolding_all rfl⟩
  intro h
  rw [show topo_order [⟨"A", 1, 1, ["X"], false, false⟩] = [] from by with_unfolding_all rfl] at h
  cases h

/-- C1, counterexample.  The claim quantifies over every `available_time`;
for a negative budget the allocator loop never runs and the pipeline
returns the empty selection, whose total duration 0 exceeds the budget. -/
theorem C1_counterexample :
    schedule [⟨"A", 1, 1, [], false, false⟩] (-1) = .ok [] ∧
    ¬ sumDur [] ≤ (-1 : ℚ) := by
  constructor
  · with_unfolding_all rfl
  · intro h
    rw [show sumDur [] = 0 from rfl] at h
    norm_num at h

theorem sumDur_nil : sumDur [] = 0 := rfl

theorem sumDur_append (a : List Task) (t : Task) :
    sumDur (a ++ [t]) = sumDur a + t.duration := by
  simp [sumDur]

/-- Loop invariant of the greedy allocator: starting a completed run from
`current_time ≤ available_time`, the selection grows by at most the
remaining budget. -/
theorem prioGo_bound (t : ℚ) :
    ∀ fuel heap current acc out, current ≤ t →
      prioGo t fuel heap current acc = .ok out →
      sumDur out ≤ sumDur acc + (t - current) := by
  intro fuel
  induction fuel with
  | zero =>
    intro heap current acc out hle h
    rw [prioGo] at h
    split at h
    · cases h
      linarith
    · cases h
  | succ fuel ih =>
    intro heap current acc out hle h
    rw [prioGo] at h
    split at h
    · cases h
      linarith
    · cases hp : heappop heap with
      | error e => rw [hp] at h; cases h
      | ok p =>
        rw [hp] at h
        obtain ⟨e, heap'⟩ := p
        simp only at h
        by_cases hfit : current + e.2.2.duration ≤ t
        · rw [if_pos hfit] at h
          have := ih heap' _ _ _ hfit h
          rw [sumDur_append] at this
          linarith
        · rw [if_neg hfit] at h
          by_cases hfrac : e.2.2.fractionable
          · rw [if_pos hfrac] at h
            cases h
            rw [sumDur_append]
            simp only [fracTask]
            linarith
          · rw [if_neg hfrac] at h
            have := ih heap' _ _ _ hle h
            linarith

/-- C1 (amended: for a nonnegative budget).  Whenever the pipeline
completes, the total duration of the selection — full activities plus the
trailing partial one, whose durations are exactly the entries summed by
`sumDur` — is at most `available_time`. -/
theorem C1_budget_conservation (tasks : List Task) (available_time : ℚ) (out : List Task)
    (ht : 0 ≤ available_time) (h : schedule tasks available_time = .ok out) :
    sumDur out ≤ available_time := by
  unfold schedule at h
  cases hts : topological_sort tasks with
  | error e => rw [hts] at h; cases h
  | ok sorted =>
    rw [hts] at h
    dsimp only at h
    cases hcm : create_max_heap sorted available_time with
    | error e => rw [hcm] at h; cases h
    | ok heap =>
      rw [hcm] at h
      dsimp only at h
      have := prioGo_bound available_time heap.length heap 0 [] out ht h
      rw [sumDur_nil] at this
      linarith

/-- Closed witness for `C1_budget_conservation` at a concrete run. -/
theorem C1_witness :
    (0 : ℚ) ≤ 5 ∧ schedule [⟨"A", 1, 1, [], false, false⟩] 5 = .ok [⟨"A", 1, 1, [], false, false⟩] ∧
    sumDur [⟨"A", 1, 1, [], false, false⟩] ≤ 5 :=
  ⟨by norm_num, by with_unfolding_all rfl,
    C1_budget_conservation [⟨"A", 1, 1, [], false, false⟩] 5 [⟨"A", 1, 1, [], false, false⟩]
      (by norm_num) (by with_unfolding_all rfl)⟩

/-- C4.  Whenever the allocator loop is live (`current_time <
available_time`), pops an activity that does not fit
(`current_time + duration > available_time`) and is fractionable, the run
ends at once with exactly one synthesized activity appended after the
selection so far: name suffixed `" (Partial)"`, value equal to the original
value times `(available_time - current_time) / duration` (that is, the
original value scaled by partial duration over original duration), duration
`available_time - current_time`, no dependencies, not mandatory, not
fractionable.  No further activity is considered, whatever remains in the
heap. -/
theorem C4_fractional_tail (t : ℚ) (fuel : Nat) (heap heap' : List Entry) (e : Entry)
    (current : ℚ) (acc : List Task)
    (hpop : heappop heap = .ok (e, heap'))
    (hlive : current < t)
    (hnofit : ¬ current + e.2.2.duration ≤ t)
    (hfrac : e.2.2.fractionable = true) :
    prioGo t (fuel + 1) heap current acc =
      .ok (acc ++ [⟨e.2.2.name ++ " (Partial)",
                    e.2.2.value * ((t - current) / e.2.2.duration),
                    t - current, [], false, false⟩]) := by
  have hne : heap ≠ [] := by
    intro hnil
    rw [hnil] at hpop
    cases hpop
  rw [prioGo]
  rw [if_neg (by push_neg; exact ⟨hne, hlive⟩)]
  simp only [hpop, if_neg hnofit, hfrac, if_pos]
  rfl

/-- Closed witness for `C4_fractional_tail`: the allocator holding only the
fractionable activity `B` (value 6, duration 6) with budget 3 stops with
the scaled partial activity. -/
theorem C4_witness :
    heappop [(0, -1, ⟨"B", 6, 6, [], false, true⟩)] =
      .ok ((0, -1, ⟨"B", 6, 6, [], false, true⟩), []) ∧
    (0 : ℚ) < 3 ∧ ¬ (0 : ℚ) + (6 : ℚ) ≤ 3 ∧
    prioGo 3 1 [(0, -1, ⟨"B", 6, 6, [], false, true⟩)] 0 [] =
      .ok ([] ++ [⟨"B" ++ " (Partial)", 6 * (((3 : ℚ) - 0) / 6), (3 : ℚ) - 0, [], false, false⟩]) :=
  ⟨by with_unfolding_all rfl, by norm_num, by norm_num,
    C4_fractional_tail 3 0 [(0, -1, ⟨"B", 6, 6, [], false, true⟩)] []
      ((0, -1, ⟨"B", 6, 6, [], false, true⟩)) 0 []
      (by with_unfolding_all rfl) (by norm_num) (by norm_num) rfl⟩

/-- C7.  In a successfully re-sorted output of `topological_sort`, a
non-mandatory activity never precedes a mandatory one, and within the same
mandatory flag the value/duration ratios are non-increasing along the
list. -/
theorem C7_resort_order (tasks out : List Task) (h : topological_sort tasks = .ok out)
    (i j : Nat) (hij : i < j) (a b : Task)
    (ha : out[i]? = some a) (hb : out[j]? = some b) :
    ¬ (a.mandatory = false ∧ b.mandatory = true) ∧
    (a.mandatory = b.mandatory → b.value / b.duration ≤ a.value / a.duration) := by
  unfold topological_sort at h
  split at h
  · cases h
  · cases h
    have hsorted : List.Sorted taskLE ((topo_order tasks).insertionSort taskLE) :=
      List.sorted_insertionSort taskLE (topo_order tasks)
    rw [List.getElem?_eq_some] at ha hb
    obtain ⟨hi, ha⟩ := ha
    obtain ⟨hj, hb⟩ := hb
    have hle : taskLE a b := by
      have := (List.pairwise_iff_getElem.mp hsorted) i j hi hj hij
      rw [ha, hb] at this
      exact this
    constructor
    · rintro ⟨hma, hmb⟩
      rcases hle with hlt | ⟨heq, _⟩
      · rw [negMand, negMand, hma, hmb] at hlt
        norm_num at hlt
      · rw [negMand, negMand, hma, hmb] at heq
        norm_num at heq
    · intro hmm
      have heq : negMand a = negMand b := by rw [negMand, negMand, hmm]
      rcases hle with hlt | ⟨_, hratio⟩
      · rw [heq] at hlt
        exact absurd hlt (lt_irrefl _)
      · exact neg_le_neg_iff.mp hratio

/-- Closed witness for `C7_resort_order`: the concrete re-sorted output
`[M, O2, O1]` at positions 1 < 2 (same flag, ratios 3 ≥ 1/2). -/
theorem C7_witness :
    topological_sort
        [⟨"O1", 1, 2, [], false, false⟩, ⟨"M", 1, 1, [], true, false⟩,
         ⟨"O2", 3, 1, [], false, false⟩] =
      .ok [⟨"M", 1, 1, [], true, false⟩, ⟨"O2", 3, 1, [], false, false⟩,
           ⟨"O1", 1, 2, [], false, false⟩] ∧
    ¬ ((⟨"O2", 3, 1, [], false, false⟩ : Task).mandatory = false ∧
        (⟨"O1", 1, 2, [], false, false⟩ : Task).mandatory = true) ∧
    ((⟨"O2", 3, 1, [], false, false⟩ : Task).mandatory =
        (⟨"O1", 1, 2, [], false, false⟩ : Task).mandatory →
      (1 : ℚ) / 2 ≤ (3 : ℚ) / 1) := by
  have h : topological_sort
      [⟨"O1", 1, 2, [], false, false⟩, ⟨"M", 1, 1, [], true, false⟩,
       ⟨"O2", 3, 1, [], false, false⟩] =
      .ok [⟨"M", 1, 1, [], true, false⟩, ⟨"O2", 3, 1, [], false, false⟩,
           ⟨"O1", 1, 2, [], false, false⟩] := by with_unfolding_all rfl
  refine ⟨h, C7_resort_order _ _ h 1 2 (by norm_num) _ _ rfl rfl⟩

theorem perm_get_cons_set {α : Type} (l : List α) (m : Nat) (x : α) (h : m < l.length) :
    (l.get ⟨m, h⟩ :: l.set m x).Perm (x :: l) := by
  induction l generalizing m with
  | nil => cases h
  | cons a tl ih =>
    cases m with
    | zero => exact List.Perm.swap x a tl
    | succ m =>
      have hm : m < tl.length := Nat.lt_of_succ_lt_succ h
      show (tl.get ⟨m, hm⟩ :: a :: tl.set m x).Perm (x :: a :: tl)
      exact ((List.Perm.swap a (tl.get ⟨m, hm⟩) (tl.set m x)).trans
        ((ih m hm).cons a)).trans (List.Perm.swap x a tl)

theorem perm_cons_set_swap {α : Type} (l : List α) (i : Nat) (x y : α) (h : i < l.length) :
    (x :: l.set i y).Perm (y :: l.set i x) := by
  induction l generalizing i with
  | nil => cases h
  | cons a tl ih =>
    cases i with
    | zero => exact List.Perm.swap y x tl
    | succ i =>
      have hi : i < tl.length := Nat.lt_of_succ_lt_succ h
      show (x :: a :: tl.set i y).Perm (y :: a :: tl.set i x)
      exact ((List.Perm.swap a x (tl.set i y)).trans
        ((ih i hi).cons a)).trans (List.Perm.swap y a (tl.set i x))

/-- Writing an element elsewhere before overwriting the source slot is, up
to permutation, just the overwrite: the shape of one `_siftdown` step. -/
theorem set_get_set_perm {α : Type} (l : List α) (i j : Nat) (x : α)
    (hi : i < l.length) (hj : j < l.length) :
    ((l.set i (l.get ⟨j, hj⟩)).set j x).Perm (l.set i x) := by
  induction l generalizing i j with
  | nil => cases hi
  | cons a tl ih =>
    cases i with
    | zero =>
      cases j with
      | zero => simp
      | succ j =>
        have hjm : j < tl.length := Nat.lt_of_succ_lt_succ hj
        simpa using perm_get_cons_set tl j x hjm
    | succ i =>
      cases j with
      | zero =>
        have him : i < tl.length := Nat.lt_of_succ_lt_succ hi
        simpa using perm_cons_set_swap tl i x a him
      | succ j =>
        have him : i < tl.length := Nat.lt_of_succ_lt_succ hi
        have hjm : j < tl.length := Nat.lt_of_succ_lt_succ hj
        simpa using (ih i j him hjm).cons a

/-- A successful `_siftdown` pass permutes the array: its result is the
array with `newitem` written at the starting slot, reordered. -/
theorem siftdownGo_perm :
    ∀ fuel (heap : List Entry) pos newitem r, pos < heap.length →
      siftdownGo fuel heap 0 pos newitem = .ok r → r.Perm (heap.set pos newitem) := by
  intro fuel
  induction fuel with
  | zero =>
    intro heap pos newitem r hpos h
    rw [siftdownGo] at h
    split at h
    · cases h
    · cases h
      exact List.Perm.refl _
  | succ fuel ih =>
    intro heap pos newitem r hpos h
    rw [siftdownGo] at h
    split at h
    · rename_i hpos0
      cases hcmp : entryLt newitem (heap.getD ((pos - 1) / 2) dEntry) with
      | error e => rw [hcmp] at h; cases h
      | ok b =>
        rw [hcmp] at h
        cases b with
        | true =>
          dsimp only at h
          have hpp : (pos - 1) / 2 < heap.length :=
            Nat.lt_of_le_of_lt (Nat.le_trans (Nat.div_le_self _ 2) (Nat.sub_le _ _)) hpos
          have hr := ih (heap.set pos (heap.getD ((pos - 1) / 2) dEntry)) ((pos - 1) / 2)
            newitem r (by simpa using hpp) h
          have hget : heap.getD ((pos - 1) / 2) dEntry = heap.get ⟨(pos - 1) / 2, hpp⟩ := by
            rw [List.getD_eq_getElem?_getD, List.getElem?_eq_getElem hpp]
            rfl
          refine hr.trans ?_
          rw [hget]
          exact set_get_set_perm heap pos ((pos - 1) / 2) newitem hpos hpp
        | false =>
          dsimp only at h
          cases h
          exact List.Perm.refl _
    · cases h
      exact List.Perm.refl _

theorem set_append_singleton {α : Type} : ∀ (l : List α) (a b : α),
    (l ++ [a]).set l.length b = l ++ [b]
  | [], a, b => rfl
  | x :: tl, a, b => by
    simp [set_append_singleton tl a b]

/-- A successful `heappush` permutes the old heap plus the new entry. -/
theorem heappush_perm (heap : List Entry) (e : Entry) (h' : List Entry)
    (h : heappush heap e = .ok h') : h'.Perm (e :: heap) := by
  unfold heappush at h
  have hp := siftdownGo_perm heap.length (heap ++ [e]) heap.length e h'
    (by simp) h
  rw [set_append_singleton] at hp
  exact hp.trans (List.perm_append_singleton e heap)

/-- A completed `create_max_heap` loop appends, up to heap reordering,
exactly the admissible tasks to the entries already present. -/
theorem cmhGo_perm (t : ℚ) : ∀ (L : List Task) (heap h : List Entry),
    cmhGo t L heap = .ok h →
    (h.map (fun e => e.2.2)).Perm ((heap.map (fun e => e.2.2)) ++
      L.filter (fun task => decide (0 < task.duration ∧
        (task.mandatory = true ∨ task.duration ≤ t)))) := by
  intro L
  induction L with
  | nil =>
    intro heap h hh
    cases hh
    simp
  | cons task rest ih =>
    intro heap h hh
    rw [cmhGo] at hh
    by_cases hc : 0 < task.duration ∧ (task.mandatory = true ∨ task.duration ≤ t)
    · rw [if_pos hc] at hh
      cases hp : heappush heap (entryOf task) with
      | error e => rw [hp] at hh; cases hh
      | ok h1 =>
        rw [hp] at hh
        dsimp only at hh
        have hperm : (h1.map (fun e => e.2.2)).Perm
            (task :: heap.map (fun e => e.2.2)) := by
          simpa [entryOf] using (heappush_perm heap (entryOf task) h1 hp).map (fun e => e.2.2)
        rw [List.filter_cons_of_pos (by simpa using hc)]
        refine (ih h1 h hh).trans ?_
        exact (hperm.append_right _).trans List.perm_middle.symm
    · rw [if_neg hc] at hh
      rw [List.filter_cons_of_neg (by simpa using hc)]
      exact ih heap h hh

/-- C6.  A successfully built priority structure holds, up to heap
arrangement, exactly the activities with positive duration that are
mandatory or fit the budget; in particular every mandatory
positive-duration activity is admitted even when its duration exceeds the
budget, and a non-mandatory activity longer than the budget is excluded. -/
theorem C6_heap_admission (sorted_tasks : List Task) (available_time : ℚ) (h : List Entry)
    (hcm : create_max_heap sorted_tasks available_time = .ok h) :
    (h.map (fun e => e.2.2)).Perm
      (sorted_tasks.filter (fun task => decide (0 < task.duration ∧
        (task.mandatory = true ∨ task.duration ≤ available_time)))) ∧
    (∀ task ∈ sorted_tasks, task.mandatory = true → 0 < task.duration →
      task ∈ h.map (fun e => e.2.2)) ∧
    (∀ task ∈ sorted_tasks, task.mandatory = false → available_time < task.duration →
      task ∉ h.map (fun e => e.2.2)) := by
  have hperm := cmhGo_perm available_time sorted_tasks [] h hcm
  simp only [List.map_nil, List.nil_append] at hperm
  refine ⟨hperm, ?_, ?_⟩
  · intro task hmem hmand hdur
    rw [hperm.mem_iff, List.mem_filter]
    exact ⟨hmem, by simp [hmand, hdur]⟩
  · intro task hmem hmand hdur hin
    rw [hperm.mem_iff, List.mem_filter] at hin
    have := hin.2
    simp only [hmand, decide_eq_true_eq] at this
    rcases this.2 with h1 | h2
    · cases h1
    · exact absurd h2 (not_le.mpr hdur)

/-- Closed witness for `C6_heap_admission`: with budget 10, the mandatory
activity of duration 100 is admitted and the optional activity of duration
50 is excluded. -/
theorem C6_witness :
    create_max_heap [⟨"M", 1, 100, [], true, false⟩, ⟨"O", 1, 50, [], false, false⟩] 10 =
      .ok [(-1, -(1 / 100 : ℚ), ⟨"M", 1, 100, [], true, false⟩)] ∧
    ((([(-1, -(1 / 100 : ℚ), ⟨"M", 1, 100, [], true, false⟩)] : List Entry).map
        (fun e => e.2.2)).Perm
      (([⟨"M", 1, 100, [], true, false⟩, ⟨"O", 1, 50, [], false, false⟩] : List Task).filter
        (fun task => decide (0 < task.duration ∧
          (task.mandatory = true ∨ task.duration ≤ (10 : ℚ))))) ∧
    (∀ task ∈ ([⟨"M", 1, 100, [], true, false⟩, ⟨"O", 1, 50, [], false, false⟩] : List Task),
      task.mandatory = true → 0 < task.duration →
      task ∈ ([(-1, -(1 / 100 : ℚ), ⟨"M", 1, 100, [], true, false⟩)] : List Entry).map
        (fun e => e.2.2)) ∧
    (∀ task ∈ ([⟨"M", 1, 100, [], true, false⟩, ⟨"O", 1, 50, [], false, false⟩] : List Task),
      task.mandatory = false → (10 : ℚ) < task.duration →
      task ∉ ([(-1, -(1 / 100 : ℚ), ⟨"M", 1, 100, [], true, false⟩)] : List Entry).map
        (fun e => e.2.2))) :=
  ⟨by with_unfolding_all rfl,
    C6_heap_admission [⟨"M", 1, 100, [], true, false⟩, ⟨"O", 1, 50, [], false, false⟩] 10
      [(-1, -(1 / 100 : ℚ), ⟨"M", 1, 100, [], true, false⟩)] (by with_unfolding_all rfl)⟩

/-- Entries stored in the name-to-task map are stored under their own
name. -/
theorem taskMapAux_name :
    ∀ (L : List Task) (m : String → Option Task),
      (∀ k t', m k = some t' → t'.name = k) →
      ∀ n t, taskMapAux m L n = some t → t.name = n := by
  intro L
  induction L with
  | nil => intro m hm n t h; exact hm n t h
  | cons t0 rest ih =>
    intro m hm n t h
    refine ih _ ?_ n t h
    intro k t' hk
    by_cases hkt : k = t0.name
    · rw [hkt, if_pos rfl] at hk
      cases hk
      exact hkt.symm
    · rw [if_neg hkt] at hk
      exact hm k t' hk

theorem taskMap_name (tasks : List Task) (n : String) (t : Task)
    (h : taskMap tasks n = some t) : t.name = n :=
  taskMapAux_name tasks (fun _ => none) (fun _ _ h => by cases h) n t h

/-- Names absent from a suffix do not change the accumulated map. -/
theorem taskMapAux_not_mem :
    ∀ (L : List Task) (m : String → Option Task) (n : String),
      (∀ t' ∈ L, t'.name ≠ n) → taskMapAux m L n = m n := by
  intro L
  induction L with
  | nil => intro m n _; rfl
  | cons t0 rest ih =>
    intro m n hne
    rw [taskMapAux, ih _ n (fun t' ht' => hne t' (List.mem_cons_of_mem t0 ht'))]
    rw [if_neg ?_]
    exact fun hn => hne t0 (List.mem_cons_self t0 rest) hn.symm

/-- The map resolves a name to the last-listed task bearing it. -/
theorem taskMap_last :
    ∀ (L : List Task) (m : String → Option Task) (j : Nat) (T : Task),
      L[j]? = some T → (∀ U ∈ L.drop (j + 1), U.name ≠ T.name) →
      taskMapAux m L T.name = some T := by
  intro L
  induction L with
  | nil => intro m j T h _; cases h
  | cons t0 rest ih =>
    intro m j T hj hlast
    cases j with
    | zero =>
      rw [List.getElem?_cons_zero] at hj
      cases hj
      rw [List.drop_one] at hlast
      rw [taskMapAux]
      rw [taskMapAux_not_mem rest _ t0.name (by simpa using hlast)]
      rw [if_pos rfl]
    | succ j =>
      rw [List.getElem?_cons_succ] at hj
      rw [List.drop_succ_cons] at hlast
      exact ih _ j T hj hlast

/-- C10.  With a duplicated name, the Kahn loop looks every popped name up
in the last-write-wins map of line 43: every task in the topological output
is its own name's map image, so the earlier-listed duplicate (when it
differs from the last one) never appears, while the last-listed duplicate
appears once per occurrence of the shared name in the pop sequence (which
lists every enqueued occurrence, possibly several). -/
theorem C10_duplicate_names (ts : List Task) (i j : Nat) (_hij : i < j)
    (Ti Tj : Task) (_hi : ts[i]? = some Ti) (hj : ts[j]? = some Tj)
    (hname : Ti.name = Tj.name)
    (hlast : ∀ U ∈ ts.drop (j + 1), U.name ≠ Tj.name)
    (hne : Ti ≠ Tj) :
    (∀ T ∈ topo_order ts, taskMap ts T.name = some T) ∧
    Ti ∉ topo_order ts ∧
    (topo_order ts).count Tj = (kahnNames ts).count Tj.name := by
  have hres : ∀ T ∈ topo_order ts, taskMap ts T.name = some T := by
    intro T hT
    obtain ⟨n, _, hfn⟩ := List.mem_filterMap.mp hT
    rw [taskMap_name ts n T hfn]
    exact hfn
  have hjlast : taskMap ts Tj.name = some Tj := taskMap_last ts _ j Tj hj hlast
  refine ⟨hres, ?_, ?_⟩
  · intro hTi
    have := hres Ti hTi
    rw [hname, hjlast] at this
    exact hne (Option.some.injEq _ _ ▸ this).symm
  · rw [topo_order, List.count_filterMap]
    rw [List.count_eq_countP]
    refine List.countP_congr ?_
    intro n _
    simp only [beq_iff_eq, decide_eq_decide]
    constructor
    · intro hsome
      exact (taskMap_name ts n Tj hsome).symm
    · intro hn
      rw [hn]
      exact hjlast

/-- Closed witness for `C10_duplicate_names`: two tasks named `"a"`; both
seed the queue, the map resolves both pops to the later task, which
therefore appears twice, while the earlier task disappears. -/
theorem C10_witness :
    (0 : Nat) < 1 ∧
    ([⟨"a", 1, 1, [], false, false⟩, ⟨"a", 2, 1, [], false, false⟩] : List Task)[0]? =
      some ⟨"a", 1, 1, [], false, false⟩ ∧
    ([⟨"a", 1, 1, [], false, false⟩, ⟨"a", 2, 1, [], false, false⟩] : List Task)[1]? =
      some ⟨"a", 2, 1, [], false, false⟩ ∧
    ((∀ T ∈ topo_order [⟨"a", 1, 1, [], false, false⟩, ⟨"a", 2, 1, [], false, false⟩],
        taskMap [⟨"a", 1, 1, [], false, false⟩, ⟨"a", 2, 1, [], false, false⟩] T.name = some T) ∧
      (⟨"a", 1, 1, [], false, false⟩ : Task) ∉
        topo_order [⟨"a", 1, 1, [], false, false⟩, ⟨"a", 2, 1, [], false, false⟩] ∧
      (topo_order [⟨"a", 1, 1, [], false, false⟩,
          ⟨"a", 2, 1, [], false, false⟩]).count ⟨"a", 2, 1, [], false, false⟩ =
        (kahnNames [⟨"a", 1, 1, [], false, false⟩, ⟨"a", 2, 1, [], false, false⟩]).count "a") ∧
    topo_order [⟨"a", 1, 1, [], false, false⟩, ⟨"a", 2, 1, [], false, false⟩] =
      [⟨"a", 2, 1, [], false, false⟩, ⟨"a", 2, 1, [], false, false⟩] :=
  ⟨Nat.zero_lt_one, rfl, rfl,
    C10_duplicate_names [⟨"a", 1, 1, [], false, false⟩, ⟨"a", 2, 1, [], false, false⟩]
      0 1 Nat.zero_lt_one _ _ rfl rfl rfl (by simp) (by decide),
    by with_unfolding_all rfl⟩

theorem kahnNames_eq (tasks : List Task) :
    kahnNames tasks = kahnRun (graphOf tasks)
      ((seedQueue tasks).length + posCount (indeg0 tasks)) (indeg0 tasks) (seedQueue tasks) := rfl

theorem getI_setI (m : List (String × Int)) (k : String) (v : Int) (n : String) :
    getI (setI m k v) n = if k = n then v else getI m n := by
  induction m with
  | nil => by_cases hn : k = n <;> simp [setI, getI, hn]
  | cons p m ih =>
    obtain ⟨q, w⟩ := p
    by_cases hk : q = k
    · subst hk
      by_cases hn : q = n <;> simp [setI, getI, hn]
    · by_cases hn : q = n
      · have hkn : ¬ k = n := fun h => hk (hn.trans h.symm)
        have hnk : ¬ n = k := fun h => hkn h.symm
        simp [setI, getI, hk, hn, hkn, hnk]
      · simp [setI, getI, hk, hn, ih]

theorem getG_addG (g : List (String × List String)) (k x : String) (n : String) :
    getG (addG g k x) n = if k = n then getG g n ++ [x] else getG g n := by
  induction g with
  | nil => by_cases hn : k = n <;> simp [addG, getG, hn]
  | cons p g ih =>
    obtain ⟨q, v⟩ := p
    by_cases hk : q = k
    · subst hk
      by_cases hn : q = n <;> simp [addG, getG, hn]
    · by_cases hn : q = n
      · have hkn : ¬ k = n := fun h => hk (hn.trans h.symm)
        have hnk : ¬ n = k := fun h => hkn h.symm
        simp [addG, getG, hk, hn, hkn, hnk]
      · simp [addG, getG, hk, hn, ih]

theorem getI_initZero (L : List Task) :
    ∀ (m : List (String × Int)) (n : String),
      getI (initZero m L) n = if n ∈ L.map (fun t => t.name) then 0 else getI m n := by
  induction L with
  | nil => intro m n; simp [initZero]
  | cons t rest ih =>
    intro m n
    rw [initZero, ih]
    by_cases hr : n ∈ rest.map (fun t => t.name)
    · simp [hr]
    · by_cases ht : t.name = n
      · simp [getI_setI, hr, ht]
      · have hnt : ¬ n = t.name := fun h => ht h.symm
        simp [getI_setI, hr, ht, hnt]

theorem indeg_addTaskEdges (tn : String) (ds : List String) :
    ∀ (st : List (String × List String) × List (String × Int)) (n : String),
      getI (addTaskEdges tn st ds).2 n = getI st.2 n + (if tn = n then (ds.length : Int) else 0) := by
  induction ds with
  | nil => intro st n; simp [addTaskEdges]
  | cons d ds ih =>
    intro st n
    rw [addTaskEdges, ih, getI_setI]
    by_cases h : tn = n
    · subst h
      simp only [if_pos rfl, List.length_cons]
      push_cast
      ring
    · simp [h]

theorem indeg_addEdges (L : List Task) :
    ∀ (st : List (String × List String) × List (String × Int)) (n : String),
      getI (addEdges st L).2 n =
        getI st.2 n + (wsum (fun t => t.dependencies.length) L n : Int) := by
  induction L with
  | nil => intro st n; simp [addEdges, wsum]
  | cons t rest ih =>
    intro st n
    rw [addEdges, ih, indeg_addTaskEdges]
    rw [show wsum (fun t => t.dependencies.length) (t :: rest) n =
      (if t.name = n then t.dependencies.length else 0) +
        wsum (fun t => t.dependencies.length) rest n from by simp [wsum]]
    by_cases h : t.name = n
    · simp only [if_pos h]
      push_cast
      ring
    · simp only [if_neg h]
      push_cast
      ring

theorem getI_build_graph (tasks : List Task) (n : String) :
    getI (indeg0 tasks) n = (wsum (fun t => t.dependencies.length) tasks n : Int) := by
  rw [indeg0, build_graph, indeg_addEdges, getI_initZero]
  split
  · simp
  · simp [getI]

theorem graph_count_addTaskEdges (tn : String) (ds : List String) :
    ∀ (st : List (String × List String) × List (String × Int)) (c x : String),
      (getG (addTaskEdges tn st ds).1 c).count x =
        (getG st.1 c).count x + (if tn = x then ds.count c else 0) := by
  induction ds with
  | nil => intro st c x; simp [addTaskEdges]
  | cons d ds ih =>
    intro st c x
    rw [addTaskEdges, ih, getG_addG]
    by_cases hdc : d = c <;> by_cases htx : tn = x <;>
      simp [hdc, htx, List.count_append, List.count_cons]
    omega

theorem graph_count_addEdges (L : List Task) :
    ∀ (st : List (String × List String) × List (String × Int)) (c x : String),
      (getG (addEdges st L).1 c).count x =
        (getG st.1 c).count x + wsum (fun t => t.dependencies.count c) L x := by
  induction L with
  | nil => intro st c x; simp [addEdges, wsum]
  | cons t rest ih =>
    intro st c x
    rw [addEdges, ih, graph_count_addTaskEdges]
    rw [show wsum (fun t => t.dependencies.count c) (t :: rest) x =
      (if t.name = x then t.dependencies.count c else 0) +
        wsum (fun t => t.dependencies.count c) rest x from by simp [wsum]]
    omega

theorem graph_count_build (tasks : List Task) (c x : String) :
    (graphOf tasks c).count x = wsum (fun t => t.dependencies.count c) tasks x := by
  rw [graphOf, build_graph, graph_count_addEdges]
  simp [getG]

theorem wsum_pos_mem (w : Task → Nat) (L : List Task) (n : String)
    (h : 0 < wsum w L n) : n ∈ L.map (fun t => t.name) := by
  induction L with
  | nil => simp [wsum] at h
  | cons t rest ih =>
    rw [show wsum w (t :: rest) n =
      (if t.name = n then w t else 0) + wsum w rest n from by simp [wsum]] at h
    by_cases ht : t.name = n
    · simp [ht]
    · rw [if_neg ht] at h
      simp only [Nat.zero_add] at h
      exact List.mem_cons_of_mem _ (ih h)

theorem graph_mem_names (tasks : List Task) (c x : String)
    (h : x ∈ graphOf tasks c) : x ∈ tasks.map (fun t => t.name) := by
  refine wsum_pos_mem (fun t => t.dependencies.count c) tasks x ?_
  rw [← graph_count_build]
  exact List.count_pos_iff.mpr h

theorem wsum_eq_zero (w : Task → Nat) (L : List Task) (n : String)
    (h : n ∉ L.map (fun t => t.name)) : wsum w L n = 0 := by
  by_contra hz
  exact h (wsum_pos_mem w L n (Nat.pos_of_ne_zero hz))

theorem wsum_nodup (w : Task → Nat) (L : List Task) (T : Task)
    (hnd : (L.map (fun t => t.name)).Nodup) (hT : T ∈ L) :
    wsum w L T.name = w T := by
  induction L with
  | nil => cases hT
  | cons t rest ih =>
    rw [List.map_cons, List.nodup_cons] at hnd
    rw [show wsum w (t :: rest) T.name =
      (if t.name = T.name then w t else 0) + wsum w rest T.name from by simp [wsum]]
    rcases List.mem_cons.mp hT with rfl | hm
    · rw [if_pos rfl, wsum_eq_zero w rest T.name hnd.1]
      omega
    · have hne : t.name ≠ T.name := by
        intro he
        exact hnd.1 (he ▸ List.mem_map_of_mem (fun t => t.name) hm)
      rw [if_neg hne, ih hnd.2 hm]
      omega

theorem taskMap_none (tasks : List Task) (n : String)
    (h : n ∉ tasks.map (fun t => t.name)) : taskMap tasks n = none := by
  rw [taskMap, taskMapAux_not_mem]
  intro t' ht' he
  exact h (he ▸ List.mem_map_of_mem (fun t => t.name) ht')

theorem taskMapAux_nodup :
    ∀ (L : List Task) (m : String → Option Task),
      (L.map (fun t => t.name)).Nodup → ∀ T ∈ L, taskMapAux m L T.name = some T := by
  intro L
  induction L with
  | nil => intro m _ T hT; cases hT
  | cons t rest ih =>
    intro m hnd T hT
    rw [List.map_cons, List.nodup_cons] at hnd
    rcases List.mem_cons.mp hT with rfl | hm
    · rw [taskMapAux, taskMapAux_not_mem]
      · simp
      · intro t' ht' he
        exact hnd.1 (he ▸ List.mem_map_of_mem (fun t => t.name) ht')
    · exact ih _ hnd.2 T hm

theorem taskMap_nodup (tasks : List Task)
    (hnd : (tasks.map (fun t => t.name)).Nodup) (T : Task) (hT : T ∈ tasks) :
    taskMap tasks T.name = some T :=
  taskMapAux_nodup tasks _ hnd T hT

theorem depsOf_of_mem (tasks : List Task)
    (hnd : (tasks.map (fun t => t.name)).Nodup) (T : Task) (hT : T ∈ tasks) :
    depsOf tasks T.name = T.dependencies := by
  rw [depsOf, taskMap_nodup tasks hnd T hT]

theorem depsOf_not_mem (tasks : List Task) (n : String)
    (h : n ∉ tasks.map (fun t => t.name)) : depsOf tasks n = [] := by
  rw [depsOf, taskMap_none tasks n h]

/-- Bridge between graph edges and dependency lists (distinct names): the
number of edges from `c` to `n` is the number of occurrences of `c` in the
dependency list of the task named `n`. -/
theorem graph_count_depsOf (tasks : List Task)
    (hnd : (tasks.map (fun t => t.name)).Nodup) (c n : String) :
    (graphOf tasks c).count n = (depsOf tasks n).count c := by
  rw [graph_count_build]
  by_cases hm : n ∈ tasks.map (fun t => t.name)
  · obtain ⟨T, hT, hTn⟩ := List.mem_map.mp hm
    subst hTn
    rw [wsum_nodup _ tasks T hnd hT, depsOf_of_mem tasks hnd T hT]
  · rw [wsum_eq_zero _ tasks n hm, depsOf_not_mem tasks n hm]
    rfl

/-- Bridge between initial in-degrees and dependency lists (distinct
names). -/
theorem indeg0_depsOf (tasks : List Task)
    (hnd : (tasks.map (fun t => t.name)).Nodup) (n : String) :
    getI (indeg0 tasks) n = ((depsOf tasks n).length : Int) := by
  rw [getI_build_graph]
  by_cases hm : n ∈ tasks.map (fun t => t.name)
  · obtain ⟨T, hT, hTn⟩ := List.mem_map.mp hm
    subst hTn
    rw [wsum_nodup _ tasks T hnd hT, depsOf_of_mem tasks hnd T hT]
  · rw [wsum_eq_zero _ tasks n hm, depsOf_not_mem tasks n hm]
    rfl

theorem posCount_cons (k : String) (w : Int) (m : List (String × Int)) :
    posCount ((k, w) :: m) = (if 0 < w then 1 else 0) + posCount m := by
  by_cases h : 0 < w
  · simp [posCount, List.filter_cons, h]
    omega
  · simp [posCount, List.filter_cons, h]

/-- One in-degree decrement lowers the positive count exactly when the old
value was 1 — the accounting behind termination of the Kahn loop. -/
theorem posCount_dec (m : List (String × Int)) (d : String) :
    posCount m = posCount (setI m d (getI m d - 1)) + (if getI m d = 1 then 1 else 0) := by
  induction m with
  | nil => simp [posCount, setI, getI]
  | cons p m ih =>
    obtain ⟨k, w⟩ := p
    by_cases hk : k = d
    · subst hk
      rw [show getI ((k, w) :: m) k = w from by simp [getI]]
      rw [show setI ((k, w) :: m) k (w - 1) = (k, w - 1) :: m from by simp [setI]]
      rw [posCount_cons, posCount_cons]
      by_cases h2 : w = 1
      · subst h2
        rw [if_pos (by norm_num : (0 : Int) < 1)]
        rw [if_neg (by norm_num : ¬ (0 : Int) < 1 - 1)]
        rw [if_pos rfl]
        omega
      · by_cases h1 : (0 : Int) < w
        · have h3 : (0 : Int) < w - 1 := by omega
          rw [if_pos h1, if_pos h3, if_neg h2]
          omega
        · have h3 : ¬ (0 : Int) < w - 1 := by omega
          rw [if_neg h1, if_neg h3, if_neg h2]
          omega
    · rw [show getI ((k, w) :: m) d = getI m d from by simp [getI, hk]]
      rw [show setI ((k, w) :: m) d (getI m d - 1) = (k, w) :: setI m d (getI m d - 1) from by
        simp [setI, hk]]
      rw [posCount_cons, posCount_cons]
      omega

/-- Processing a dependent list preserves queue length plus positive
in-degree count: each enqueue is paid for by a positive in-degree reaching
zero. -/
theorem processDeps_measure :
    ∀ (ds : List String) (st : List (String × Int) × List String),
      (processDeps st ds).2.length + posCount (processDeps st ds).1 =
        st.2.length + posCount st.1 := by
  intro ds
  induction ds with
  | nil => intro st; rfl
  | cons d ds ih =>
    intro st
    rw [processDeps, ih]
    have hd := posCount_dec st.1 d
    dsimp only
    by_cases hv : getI st.1 d - 1 = 0
    · rw [if_pos hv]
      have h1 : getI st.1 d = 1 := by omega
      rw [if_pos h1] at hd
      rw [List.length_append]
      simp only [List.length_singleton]
      omega
    · rw [if_neg hv]
      have h1 : ¬ getI st.1 d = 1 := by omega
      rw [if_neg h1] at hd
      omega

/-- Summing the per-name multiplicities over a duplicate-free list of names
counts exactly the elements drawn from that list. -/
theorem sum_count_nodup :
    ∀ (L X : List String), L.Nodup →
      (L.map (fun c => X.count c)).sum = X.countP (fun x => decide (x ∈ L)) := by
  intro L
  induction L with
  | nil =>
    intro X _
    simp [List.countP_eq_zero]
  | cons c L ih =>
    intro X hnd
    rw [List.nodup_cons] at hnd
    rw [List.map_cons, List.sum_cons, ih X hnd.2]
    have hcc : ∀ (Y : List String), Y.countP (fun x => decide (x ∈ c :: L)) =
        Y.count c + Y.countP (fun x => decide (x ∈ L)) := by
      intro Y
      induction Y with
      | nil => rfl
      | cons y Y ihY =>
        rw [List.countP_cons, List.countP_cons, List.count_cons, ihY]
        by_cases hy : y = c
        · subst hy
          simp [hnd.1]
          omega
        · have hcy : ¬ (c = y) := fun h => hy h.symm
          simp [List.mem_cons, hy, hcy]
          omega
    rw [hcc X]

theorem countP_ge_length_all (X : List String) (p : String → Bool)
    (h : X.length ≤ X.countP p) : ∀ x ∈ X, p x = true := by
  have hle : X.countP p ≤ X.length := List.countP_le_length p
  have : X.countP p = X.length := le_antisymm hle h
  exact List.countP_eq_length.mp this

theorem decSum_nil (tasks : List Task) (n : String) : decSum tasks [] n = 0 := rfl

theorem decSum_append_singleton (tasks : List Task) (P : List String) (c n : String) :
    decSum tasks (P ++ [c]) n = decSum tasks P n + (depsOf tasks n).count c := by
  simp [decSum]

/-- Invariant preservation through one pass of the dependent-processing
loop: in-degree bookkeeping, no duplicated queue entries, queue entries
are task names with non-positive in-degree, and every enqueued name has
all its dependencies among the popped names. -/
theorem processDeps_inv (ts : List Task) (hnd : (ts.map (fun t => t.name)).Nodup)
    (c : String) (P : List String) :
    ∀ (dsr dsp : List String) (ind : List (String × Int)) (q : List String),
      graphOf ts c = dsp ++ dsr →
      (∀ n, getI ind n =
        ((depsOf ts n).length : Int) - (decSum ts P n : Int) - (dsp.count n : Int)) →
      ((P ++ [c]) ++ q).Nodup →
      (∀ n ∈ (P ++ [c]) ++ q, n ∈ ts.map (fun t => t.name)) →
      (∀ n ∈ (P ++ [c]) ++ q, getI ind n ≤ 0) →
      (∀ n ∈ q, ∀ d ∈ depsOf ts n, d ∈ P ++ [c]) →
      ((∀ n, getI (processDeps (ind, q) dsr).1 n =
          ((depsOf ts n).length : Int) - (decSum ts P n : Int) - ((dsp ++ dsr).count n : Int)) ∧
       ((P ++ [c]) ++ (processDeps (ind, q) dsr).2).Nodup ∧
       (∀ n ∈ (P ++ [c]) ++ (processDeps (ind, q) dsr).2, n ∈ ts.map (fun t => t.name)) ∧
       (∀ n ∈ (P ++ [c]) ++ (processDeps (ind, q) dsr).2,
          getI (processDeps (ind, q) dsr).1 n ≤ 0) ∧
       (∀ n ∈ (processDeps (ind, q) dsr).2, ∀ d ∈ depsOf ts n, d ∈ P ++ [c])) := by
  intro dsr
  induction dsr with
  | nil =>
    intro dsp ind q hG hind hnodup hmem hle hqdeps
    refine ⟨?_, hnodup, hmem, hle, hqdeps⟩
    intro n
    rw [List.append_nil]
    exact hind n
  | cons e dsr ih =>
    intro dsp ind q hG hind hnodup hmem hle hqdeps
    rw [processDeps]
    dsimp only
    rw [show dsp ++ e :: dsr = (dsp ++ [e]) ++ dsr from by
      rw [List.append_assoc, List.singleton_append]]
    have hGmem : e ∈ graphOf ts c := by
      rw [hG]
      exact List.mem_append_right dsp (List.mem_cons_self e dsr)
    have hename : e ∈ ts.map (fun t => t.name) := graph_mem_names ts c e hGmem
    have hG2 : graphOf ts c = (dsp ++ [e]) ++ dsr := by
      rw [hG, List.append_assoc, List.singleton_append]
    have hce : (dsp ++ [e]).count e = dsp.count e + 1 := by
      simp [List.count_append]
    have hcne : ∀ n, ¬ e = n → (dsp ++ [e]).count n = dsp.count n := by
      intro n hn
      have hn2 : ¬ n = e := fun h => hn h.symm
      simp [List.count_append, List.count_eq_zero.mpr (show n ∉ [e] by simp [hn2])]
    have hind2 : ∀ n, getI (setI ind e (getI ind e - 1)) n =
        ((depsOf ts n).length : Int) - (decSum ts P n : Int) -
          (((dsp ++ [e]).count n : Nat) : Int) := by
      intro n
      rw [getI_setI]
      by_cases hen : e = n
      · subst hen
        rw [if_pos rfl, hind e, hce]
        push_cast
        ring
      · rw [if_neg hen, hind n, hcne n hen]
    by_cases hpush : getI ind e - 1 = 0
    · rw [if_pos hpush]
      have he1 : getI ind e = 1 := by omega
      have henotin : e ∉ (P ++ [c]) ++ q := by
        intro hin
        have := hle e hin
        omega
      have hnodup2 : ((P ++ [c]) ++ (q ++ [e])).Nodup := by
        have h1 : (((P ++ [c]) ++ q) ++ [e]).Nodup := by
          refine ((List.perm_append_singleton e ((P ++ [c]) ++ q)).nodup_iff).mpr ?_
          rw [List.nodup_cons]
          exact ⟨henotin, hnodup⟩
        rw [List.append_assoc] at h1
        exact h1
      have hdeps_e : ∀ x ∈ depsOf ts e, x ∈ P ++ [c] := by
        have hcount : dsp.count e + 1 ≤ (graphOf ts c).count e := by
          rw [hG, List.count_append, List.count_cons]
          simp
        have hkey : (graphOf ts c).count e = (depsOf ts e).count c :=
          graph_count_depsOf ts hnd c e
        have hlen := hind e
        have hsum : (depsOf ts e).length ≤ decSum ts P e + (depsOf ts e).count c := by
          omega
        have hPc : (P ++ [c]).Nodup := hnodup.of_append_left
        have hsum2 : (depsOf ts e).length ≤
            (depsOf ts e).countP (fun x => decide (x ∈ P ++ [c])) := by
          rw [← sum_count_nodup (P ++ [c]) (depsOf ts e) hPc]
          rw [show ((P ++ [c]).map (fun u => (depsOf ts e).count u)).sum =
            decSum ts (P ++ [c]) e from rfl]
          rw [decSum_append_singleton]
          exact hsum
        intro x hx
        exact of_decide_eq_true (countP_ge_length_all (depsOf ts e) _ hsum2 x hx)
      refine ih (dsp ++ [e]) (setI ind e (getI ind e - 1)) (q ++ [e]) hG2 hind2 hnodup2 ?_ ?_ ?_
      · intro n hn
        simp only [List.mem_append, List.mem_singleton] at hn
        rcases hn with (h | h) | h
        · exact hmem n (by simp only [List.mem_append]; exact Or.inl (Or.inl h))
        · refine hmem n ?_
          simp only [List.mem_append, List.mem_singleton]
          exact Or.inl (Or.inr h)
        · rcases h with h | h
          · exact hmem n (by simp only [List.mem_append]; exact Or.inr h)
          · exact h ▸ hename
      · intro n hn
        rw [hind2 n]
        simp only [List.mem_append, List.mem_singleton] at hn
        have hca : (dsp ++ [e]).count n = dsp.count n + List.count n [e] :=
          List.count_append n dsp [e]
        rcases hn with (h | h) | h
        · have := hle n (by simp only [List.mem_append]; exact Or.inl (Or.inl h))
          rw [hind n] at this
          omega
        · have hmem2 : n ∈ (P ++ [c]) ++ q := by
            simp only [List.mem_append, List.mem_singleton]
            exact Or.inl (Or.inr h)
          have := hle n hmem2
          rw [hind n] at this
          omega
        · rcases h with h | h
          · have := hle n (by simp only [List.mem_append]; exact Or.inr h)
            rw [hind n] at this
            omega
          · subst h
            have := hind n
            rw [hce]
            omega
      · intro n hn
        rcases List.mem_append.mp hn with h | h
        · exact hqdeps n h
        · rw [List.mem_singleton] at h
          exact h ▸ hdeps_e
    · rw [if_neg hpush]
      refine ih (dsp ++ [e]) (setI ind e (getI ind e - 1)) q hG2 hind2 hnodup hmem ?_ hqdeps
      intro n hn
      rw [hind2 n]
      have := hle n hn
      rw [hind n] at this
      have hca : (dsp ++ [e]).count n = dsp.count n + List.count n [e] :=
        List.count_append n dsp [e]
      omega

/-- Main invariant of the Kahn queue loop (distinct task names): with fuel
at least queue length plus positive in-degree count — exactly what
`kahnNames` supplies — the pop sequence extends the popped prefix without
duplicates, pops only task names, and pops a name only after all of the
dependencies of its task have been popped. -/
theorem kahnRun_inv (ts : List Task) (hnd : (ts.map (fun t => t.name)).Nodup) :
    ∀ (fuel : Nat) (ind : List (String × Int)) (q P : List String),
      q.length + posCount ind ≤ fuel →
      (∀ n, getI ind n = ((depsOf ts n).length : Int) - (decSum ts P n : Int)) →
      (P ++ q).Nodup →
      (∀ n ∈ P ++ q, n ∈ ts.map (fun t => t.name)) →
      (∀ n ∈ P ++ q, getI ind n ≤ 0) →
      (∀ n ∈ q, ∀ d ∈ depsOf ts n, d ∈ P) →
      ((P ++ kahnRun (graphOf ts) fuel ind q).Nodup ∧
       (∀ n ∈ kahnRun (graphOf ts) fuel ind q, n ∈ ts.map (fun t => t.name)) ∧
       (∀ i (hi : i < (kahnRun (graphOf ts) fuel ind q).length),
          ∀ d ∈ depsOf ts ((kahnRun (graphOf ts) fuel ind q).get ⟨i, hi⟩),
          d ∈ P ++ (kahnRun (graphOf ts) fuel ind q).take i)) := by
  intro fuel
  induction fuel with
  | zero =>
    intro ind q P hf hind hnodup hmem hle hqdeps
    have hq : q = [] := List.length_eq_zero.mp (by omega)
    subst hq
    simp only [kahnRun]
    refine ⟨by simpa using hnodup, by simp, ?_⟩
    intro i hi
    simp at hi
  | succ fuel ih =>
    intro ind q P hf hind hnodup hmem hle hqdeps
    cases q with
    | nil =>
      simp only [kahnRun]
      refine ⟨by simpa using hnodup, by simp, ?_⟩
      intro i hi
      simp at hi
    | cons c rest =>
      simp only [kahnRun]
      have hassoc : (P ++ [c]) ++ rest = P ++ (c :: rest) := by
        rw [List.append_assoc, List.singleton_append]
      have hcq : c ∈ P ++ (c :: rest) := List.mem_append_right P (List.mem_cons_self c rest)
      have hcdeps : ∀ d ∈ depsOf ts c, d ∈ P := hqdeps c (List.mem_cons_self c rest)
      have hcname : c ∈ ts.map (fun t => t.name) := hmem c hcq
      have hPD := processDeps_inv ts hnd c P (graphOf ts c) [] ind rest
        (by simp)
        (fun n => by rw [hind n]; simp)
        (by rw [hassoc]; exact hnodup)
        (fun n hn => hmem n (hassoc ▸ hn))
        (fun n hn => hle n (hassoc ▸ hn))
        (fun n hn d hd =>
          List.mem_append_left [c] (hqdeps n (List.mem_cons_of_mem c hn) d hd))
      obtain ⟨hI, hN, hM, hL, hQ⟩ := hPD
      have hind2 : ∀ n, getI (processDeps (ind, rest) (graphOf ts c)).1 n =
          ((depsOf ts n).length : Int) - (decSum ts (P ++ [c]) n : Int) := by
        intro n
        rw [hI n, decSum_append_singleton]
        rw [show ([] : List String) ++ graphOf ts c = graphOf ts c from by simp]
        rw [graph_count_depsOf ts hnd c n]
        push_cast
        ring
      have hmeas := processDeps_measure (graphOf ts c) (ind, rest)
      dsimp only at hmeas
      have hf2 : (processDeps (ind, rest) (graphOf ts c)).2.length +
          posCount (processDeps (ind, rest) (graphOf ts c)).1 ≤ fuel := by
        rw [hmeas]
        simp only [List.length_cons] at hf
        omega
      have hrec := ih (processDeps (ind, rest) (graphOf ts c)).1
        (processDeps (ind, rest) (graphOf ts c)).2 (P ++ [c]) hf2 hind2 hN hM hL hQ
      obtain ⟨rN, rM, rIII⟩ := hrec
      refine ⟨?_, ?_, ?_⟩
      · rw [show P ++ (c :: kahnRun (graphOf ts) fuel (processDeps (ind, rest) (graphOf ts c)).1
            (processDeps (ind, rest) (graphOf ts c)).2) =
          (P ++ [c]) ++ kahnRun (graphOf ts) fuel (processDeps (ind, rest) (graphOf ts c)).1
            (processDeps (ind, rest) (graphOf ts c)).2 from by
          rw [List.append_assoc, List.singleton_append]]
        exact rN
      · intro n hn
        rcases List.mem_cons.mp hn with rfl | hn2
        · exact hcname
        · exact rM n hn2
      · intro i hi
        cases i with
        | zero =>
          intro d hd
          simp only [List.take_zero, List.append_nil]
          exact hcdeps d hd
        | succ i =>
          intro d hd
          simp only [List.length_cons] at hi
          have hi2 : i < (kahnRun (graphOf ts) fuel (processDeps (ind, rest) (graphOf ts c)).1
              (processDeps (ind, rest) (graphOf ts c)).2).length := Nat.lt_of_succ_lt_succ hi
          have := rIII i hi2 d hd
          rw [List.take_succ_cons, ← List.singleton_append, ← List.append_assoc]
          exact this

theorem filterMap_eq_map_of_forall_some {α β : Type} (f : α → Option β) (g : α → β) :
    ∀ (l : List α), (∀ x ∈ l, f x = some (g x)) → l.filterMap f = l.map g := by
  intro l
  induction l with
  | nil => intro _; rfl
  | cons a l ih =>
    intro h
    simp only [List.filterMap_cons, h a (List.mem_cons_self a l), List.map_cons]
    rw [ih (fun x hx => h x (List.mem_cons_of_mem a hx))]

/-- The completed Kahn run of `topological_sort` on a set with distinct
names: popped names are duplicate-free task names, and every pop comes
after the pops of all its task's dependencies. -/
theorem kahnNames_spec (ts : List Task) (hnd : (ts.map (fun t => t.name)).Nodup) :
    (kahnNames ts).Nodup ∧
    (∀ n ∈ kahnNames ts, n ∈ ts.map (fun t => t.name)) ∧
    (∀ i (hi : i < (kahnNames ts).length),
      ∀ d ∈ depsOf ts ((kahnNames ts).get ⟨i, hi⟩), d ∈ (kahnNames ts).take i) := by
  have hseed_zero : ∀ n ∈ seedQueue ts, getI (indeg0 ts) n = 0 := by
    intro n hn
    obtain ⟨t, ht, htn⟩ := List.mem_map.mp hn
    have := List.of_mem_filter ht
    rw [← htn]
    exact of_decide_eq_true this
  have h := kahnRun_inv ts hnd ((seedQueue ts).length + posCount (indeg0 ts))
    (indeg0 ts) (seedQueue ts) [] (le_refl _)
    (fun n => by rw [indeg0_depsOf ts hnd n, decSum_nil]; simp)
    (by
      simp only [List.nil_append]
      refine List.Nodup.sublist ?_ hnd
      exact ((List.filter_sublist ts).map (fun t => t.name)))
    (by
      intro n hn
      simp only [List.nil_append] at hn
      obtain ⟨t, ht, htn⟩ := List.mem_map.mp hn
      exact htn ▸ List.mem_map_of_mem (fun t => t.name) (List.mem_of_mem_filter ht))
    (by
      intro n hn
      simp only [List.nil_append] at hn
      rw [hseed_zero n hn])
    (by
      intro n hn d hd
      have h0 := hseed_zero n hn
      rw [indeg0_depsOf ts hnd n] at h0
      have : (depsOf ts n).length = 0 := by exact_mod_cast h0
      rw [List.length_eq_zero.mp this] at hd
      cases hd)
  rw [kahnNames_eq]
  obtain ⟨h1, h2, h3⟩ := h
  refine ⟨by simpa using h1, h2, ?_⟩
  intro i hi d hd
  have := h3 i hi d hd
  simpa using this

/-- The topological output on a distinct-name set: every popped name is
looked up in the task map. -/
theorem topo_order_eq_map (ts : List Task) (hnd : (ts.map (fun t => t.name)).Nodup) :
    topo_order ts = (kahnNames ts).map (resolveTask ts) := by
  rw [topo_order]
  refine filterMap_eq_map_of_forall_some _ _ _ ?_
  intro n hn
  obtain ⟨T, hT, hTn⟩ := List.mem_map.mp ((kahnNames_spec ts hnd).2.1 n hn)
  subst hTn
  rw [taskMap_nodup ts hnd T hT, resolveTask, taskMap_nodup ts hnd T hT]
  rfl

theorem resolveTask_of_mem (ts : List Task) (hnd : (ts.map (fun t => t.name)).Nodup)
    (T : Task) (hT : T ∈ ts) : resolveTask ts T.name = T := by
  rw [resolveTask, taskMap_nodup ts hnd T hT]
  rfl

/-- C2 (amended).  On a set with pairwise distinct names, an activity with
an unresolved dependency reference never appears in the topological
output: the unresolved edge keeps its in-degree positive forever. -/
theorem C2_dangling_excluded (tasks : List Task)
    (hnd : (tasks.map (fun t => t.name)).Nodup)
    (A : Task) (hA : A ∈ tasks) (x : String) (hx : x ∈ A.dependencies)
    (hmiss : x ∉ tasks.map (fun t => t.name)) :
    A ∉ topo_order tasks := by
  intro hin
  rw [topo_order_eq_map tasks hnd] at hin
  obtain ⟨n, hn, hgn⟩ := List.mem_map.mp hin
  obtain ⟨T, hT, hTn⟩ := List.mem_map.mp ((kahnNames_spec tasks hnd).2.1 n hn)
  have hrT : resolveTask tasks n = T := by
    rw [← hTn]
    exact resolveTask_of_mem tasks hnd T hT
  have hAn : A.name = n := by
    rw [show A = T from by rw [← hgn, hrT], hTn]
  obtain ⟨i, hi, hni⟩ := List.mem_iff_getElem.mp hn
  have hdx : x ∈ depsOf tasks ((kahnNames tasks).get ⟨i, hi⟩) := by
    rw [List.get_eq_getElem, hni, ← hAn, depsOf_of_mem tasks hnd A hA]
    exact hx
  have := (kahnNames_spec tasks hnd).2.2 i hi x hdx
  exact hmiss ((kahnNames_spec tasks hnd).2.1 x (List.take_subset i (kahnNames tasks) this))

/-- Closed witness for `C2_dangling_excluded`: the activity `"a"` lists the
unresolved name `"x"` and is dropped from the topological output. -/
theorem C2_witness :
    (([⟨"b", 1, 1, [], false, false⟩, ⟨"a", 1, 1, ["x"], false, false⟩] : List Task).map
        (fun t => t.name)).Nodup ∧
    (⟨"a", 1, 1, ["x"], false, false⟩ : Task) ∈
      ([⟨"b", 1, 1, [], false, false⟩, ⟨"a", 1, 1, ["x"], false, false⟩] : List Task) ∧
    "x" ∈ (⟨"a", 1, 1, ["x"], false, false⟩ : Task).dependencies ∧
    "x" ∉ ([⟨"b", 1, 1, [], false, false⟩, ⟨"a", 1, 1, ["x"], false, false⟩] : List Task).map
        (fun t => t.name) ∧
    (⟨"a", 1, 1, ["x"], false, false⟩ : Task) ∉
      topo_order [⟨"b", 1, 1, [], false, false⟩, ⟨"a", 1, 1, ["x"], false, false⟩] :=
  ⟨by decide, by decide, by decide, by decide,
    C2_dangling_excluded [⟨"b", 1, 1, [], false, false⟩, ⟨"a", 1, 1, ["x"], false, false⟩]
      (by decide) ⟨"a", 1, 1, ["x"], false, false⟩ (by decide) "x" (by decide) (by decide)⟩

/-- C5, counterexample.  `A` depends on the present activity `D` and on the
unresolved name `"X"`.  No dependency cycle exists anywhere in the set (`D`
lists no dependencies, and `A`'s only resolvable dependency is `D`), yet
`A` never appears in the pre-re-sort topological output: the dangling edge
keeps its in-degree at 1 forever, so the claim that `A` appears after `D`
fails at this input — `A` does not appear at all. -/
theorem C5_counterexample :
    (([⟨"D", 1, 1, [], false, false⟩,
        ⟨"A", 1, 1, ["D", "X"], false, false⟩] : List Task).map
        (fun t => t.name)).Nodup ∧
    (⟨"D", 1, 1, [], false, false⟩ : Task).name ∈
      (⟨"A", 1, 1, ["D", "X"], false, false⟩ : Task).dependencies ∧
    topo_order [⟨"D", 1, 1, [], false, false⟩, ⟨"A", 1, 1, ["D", "X"], false, false⟩] =
      [⟨"D", 1, 1, [], false, false⟩] ∧
    (⟨"A", 1, 1, ["D", "X"], false, false⟩ : Task) ∉
      topo_order [⟨"D", 1, 1, [], false, false⟩, ⟨"A", 1, 1, ["D", "X"], false, false⟩] :=
  ⟨by decide, by decide, by decide, by decide⟩

/-- C5 (amended: conditioned on `A` appearing in the output rather than on
acyclicity, which the counterexample shows is not enough — an activity free
of cycles can still be dropped by a dangling reference, its own or an
ancestor's).  On a set with pairwise distinct names, whenever an activity
`A` appears in the pre-re-sort topological output, every activity `D` whose
name is listed among `A`'s dependencies appears at an earlier position; so
`A` never precedes a dependency, and whenever both appear, `A` appears
after `D`. -/
theorem C5_dependency_respect (tasks : List Task)
    (hnd : (tasks.map (fun t => t.name)).Nodup)
    (A D : Task) (hA : A ∈ tasks) (hD : D ∈ tasks)
    (hdep : D.name ∈ A.dependencies)
    (i : Nat) (hiA : (topo_order tasks)[i]? = some A) :
    ∃ j, j < i ∧ (topo_order tasks)[j]? = some D := by
  rw [topo_order_eq_map tasks hnd] at hiA ⊢
  rw [List.getElem?_map] at hiA
  obtain ⟨n, hn, hgn⟩ := Option.map_eq_some'.mp hiA
  obtain ⟨hilen, hni⟩ := List.getElem?_eq_some.mp hn
  obtain ⟨T, hT, hTn⟩ := List.mem_map.mp
    ((kahnNames_spec tasks hnd).2.1 n (List.getElem?_mem hn))
  have hrT : resolveTask tasks n = T := by
    rw [← hTn]
    exact resolveTask_of_mem tasks hnd T hT
  have hAn : A.name = n := by
    rw [show A = T from by rw [← hgn, hrT], hTn]
  have hdx : D.name ∈ depsOf tasks ((kahnNames tasks).get ⟨i, hilen⟩) := by
    rw [List.get_eq_getElem, hni, ← hAn, depsOf_of_mem tasks hnd A hA]
    exact hdep
  have htake := (kahnNames_spec tasks hnd).2.2 i hilen D.name hdx
  rw [List.mem_take_iff_getElem] at htake
  obtain ⟨j, hj, hjval⟩ := htake
  have hji : j < i := lt_of_lt_of_le hj (min_le_left i _)
  have hjlen : j < (kahnNames tasks).length := lt_of_lt_of_le hj (min_le_right i _)
  refine ⟨j, hji, ?_⟩
  rw [List.getElem?_map, List.getElem?_eq_getElem hjlen, hjval]
  simp only [Option.map_some']
  rw [resolveTask_of_mem tasks hnd D hD]

/-- Closed witness for `C5_dependency_respect`: `"a"` depends on `"d"`;
in the topological output `[d, a]` the dependency sits at position 0 < 1. -/
theorem C5_witness :
    (([⟨"d", 1, 1, [], false, false⟩, ⟨"a", 1, 1, ["d"], false, false⟩] : List Task).map
        (fun t => t.name)).Nodup ∧
    (topo_order [⟨"d", 1, 1, [], false, false⟩, ⟨"a", 1, 1, ["d"], false, false⟩])[1]? =
      some ⟨"a", 1, 1, ["d"], false, false⟩ ∧
    ∃ j, j < 1 ∧
      (topo_order [⟨"d", 1, 1, [], false, false⟩, ⟨"a", 1, 1, ["d"], false, false⟩])[j]? =
        some ⟨"d", 1, 1, [], false, false⟩ :=
  ⟨by decide, by decide,
    C5_dependency_respect [⟨"d", 1, 1, [], false, false⟩, ⟨"a", 1, 1, ["d"], false, false⟩]
      (by decide) ⟨"a", 1, 1, ["d"], false, false⟩ ⟨"d", 1, 1, [], false, false⟩
      (by decide) (by decide) (by decide) 1 (by decide)⟩

example : kahnNames [⟨"a", 1, 1, ["b"], false, false⟩,
    ⟨"b", 1, 1, [], false, false⟩] = ["b", "a"] := by decide

example : topo_order [⟨"a", 1, 1, ["x"], false, false⟩] = [] := by decide

example : topological_sort [⟨"a", 2, 1, [], false, false⟩,
    ⟨"b", 1, 1, [], true, false⟩] =
    .ok [⟨"b", 1, 1, [], true, false⟩, ⟨"a", 2, 1, [], false, false⟩] := rfl

end FlaskApp
